import Mathlib

/-!
Verification of the task-list parser/mutator (`src/utils/scripts.ts`,
`parseTasksMd` / `markTaskComplete`) and of the workflow-state store
(`src/utils/state.ts`) of the speckit-autopilot repository.

Documents are modelled as `List Char` (JS strings are sequences of code
units; every character involved here is a single code unit).  The two
JavaScript regular expressions used by the parser and the mutator are
embedded as deterministic matching functions; each place where the regex
engine could backtrack is either shown determinate (a greedy `\s+`, `\d+`
or `[:\s]+` run is always followed by a literal outside its class, so
giving characters back can never succeed) or modelled explicitly (the
final `(.+)$` may take one character back from the preceding greedy run).
-/

namespace Speckit

/-- The character class of the JavaScript regex escape `\s`
(ECMAScript WhiteSpace plus LineTerminator), by code point. -/
def isJsSpace (c : Char) : Bool :=
  c.toNat = 0x20 || c.toNat = 0x09 || c.toNat = 0x0A || c.toNat = 0x0B ||
  c.toNat = 0x0C || c.toNat = 0x0D || c.toNat = 0xA0 || c.toNat = 0x1680 ||
  (0x2000 ≤ c.toNat && c.toNat ≤ 0x200A) || c.toNat = 0x2028 || c.toNat = 0x2029 ||
  c.toNat = 0x202F || c.toNat = 0x205F || c.toNat = 0x3000 || c.toNat = 0xFEFF

/-- The character class of the JavaScript regex escape `\d`, i.e. `[0-9]`. -/
def isDigitJs (c : Char) : Bool :=
  0x30 ≤ c.toNat && c.toNat ≤ 0x39

/-- The character class of the JavaScript regex metacharacter `.` without the
`s` flag: everything except a LineTerminator. -/
def isDot (c : Char) : Bool :=
  !(c.toNat = 0x0A || c.toNat = 0x0D || c.toNat = 0x2028 || c.toNat = 0x2029)

/-- The bracket character class `[\sxX]` of both task-line regexes. -/
def isBracketChar (c : Char) : Bool :=
  isJsSpace c || c == 'x' || c == 'X'

/-- The character class `[:\s]` of the phase-heading regex. -/
def isColonWs (c : Char) : Bool :=
  c == ':' || isJsSpace c

/-- JS `String.prototype.trim`: strip leading and trailing `\s`-class characters. -/
def jsTrim (l : List Char) : List Char :=
  ((l.dropWhile isJsSpace).reverse.dropWhile isJsSpace).reverse

/-- The `content.split('\n')` of `parseTasksMd` / `markTaskComplete`. -/
def splitLines : List Char → List (List Char)
  | [] => [[]]
  | c :: cs =>
    if c = '\n' then [] :: splitLines cs
    else
      match splitLines cs with
      | [] => [[c]]
      | l :: ls => (c :: l) :: ls

/-- The `updatedLines.join('\n')` of `markTaskComplete`. -/
def joinLines : List (List Char) → List Char
  | [] => []
  | [l] => l
  | l :: l' :: ls => l ++ '\n' :: joinLines (l' :: ls)

/-- The `line.includes('[P]')` test (substring test used for the `parallel` flag). -/
def hasPTag : List Char → Bool
  | [] => false
  | c :: t => (decide (c = '[') && ['P', ']'].isPrefixOf t) || hasPTag t

/-- The suffix pattern `\s+(.+)$` of the parse regex, generalised over the
class of the greedy run so it also serves `[:\s]+(.+)$` of the phase regex.
The greedy run first takes its maximal prefix; since `.` rejects
LineTerminators, a match exists iff the remainder is non-empty and free of
LineTerminators, or — when the run swallowed the whole string — the engine
gives exactly one terminal class character back to `(.+)` (a shorter run
would put further class characters, hence possibly terminators, into the
capture; the first give-back that succeeds is the one-character one). -/
def finalClassDesc (p : Char → Bool) (t : List Char) : Option (List Char) :=
  match t.takeWhile p, t.dropWhile p with
  | [], _ => none
  | ws, [] =>
    if 2 ≤ ws.length ∧ isDot (ws.getD (ws.length - 1) ' ') then
      some (ws.drop (ws.length - 1))
    else none
  | _, r => if r.all isDot then some r else none

/-- The pattern `\s+(.+)$` — whitespace then the captured description. -/
def finalWsDesc (t : List Char) : Option (List Char) :=
  finalClassDesc isJsSpace t

/-- The optional group `(?:\s+\[P\])?` when it matches: maximal whitespace run
(non-empty, necessarily followed by the literal `[` which is not in `\s`)
then the literal `[P]`; returns the rest. -/
def consumeP (t : List Char) : Option (List Char) :=
  match t.takeWhile isJsSpace, t.dropWhile isJsSpace with
  | [], _ => none
  | _, '[' :: 'P' :: ']' :: r => some r
  | _, _ => none

/-- The optional group `(?:\s+\[(US\d+)\])?` when it matches: whitespace, the
literal `[US`, a maximal non-empty digit run (followed by the literal `]`,
not a digit, so greediness is determinate), then `]`.  Returns the capture
`US…` and the rest. -/
def consumeUS (t : List Char) : Option (List Char × List Char) :=
  match t.takeWhile isJsSpace, t.dropWhile isJsSpace with
  | [], _ => none
  | _, '[' :: 'U' :: 'S' :: r2 =>
    match r2.takeWhile isDigitJs, r2.dropWhile isDigitJs with
    | _ :: _, ']' :: r4 => some ('U' :: 'S' :: (r2.takeWhile isDigitJs), r4)
    | _, _ => none
  | _, _ => none

/-- Matching of `(?:\s+\[(US\d+)\])?\s+(.+)$` with regex backtracking: the
optional group is tried first; if the continuation fails the engine retries
with the group empty. -/
def storyTail (t : List Char) : Option (Option (List Char) × List Char) :=
  match consumeUS t with
  | some (st, r) =>
    match finalWsDesc r with
    | some d => some (some st, d)
    | none => (finalWsDesc t).map (fun d => (none, d))
  | none => (finalWsDesc t).map (fun d => (none, d))

/-- Matching of `(?:\s+\[P\])?(?:\s+\[(US\d+)\])?\s+(.+)$` with regex
backtracking over the optional `[P]` group. -/
def tagTail (t : List Char) : Option (Option (List Char) × List Char) :=
  match consumeP t with
  | some r =>
    match storyTail r with
    | some x => some x
    | none => storyTail t
  | none => storyTail t

/-- A task record produced by `parseTasksMd` (interface `Task`). -/
structure Task where
  id : List Char
  completed : Bool
  description : List Char
  phase : List Char
  parallel : Bool
  story : Option (List Char)
deriving DecidableEq, Repr

/-- The phase-heading regex `/^##\s+Phase\s+\d+[:\s]+(.+)$/i` of
`parseTasksMd`, returning the capture (the untrimmed phase title).  The
`i` flag only affects the literal letters of `Phase`.  Each greedy run is
followed by a literal or class disjoint from it, so matching is determinate
up to the final `[:\s]+(.+)$` handled by `finalClassDesc` (backtracking out
of `\d+` cannot succeed: the character given back is a digit, which is in
neither `[:\s]` nor `\s`). -/
def phaseTitle (l : List Char) : Option (List Char) :=
  match l with
  | '#' :: '#' :: t1 =>
    match t1.takeWhile isJsSpace, t1.dropWhile isJsSpace with
    | _ :: _, p :: h :: a :: s :: e :: t2 =>
      if (p = 'P' ∨ p = 'p') ∧ (h = 'H' ∨ h = 'h') ∧ (a = 'A' ∨ a = 'a') ∧
         (s = 'S' ∨ s = 's') ∧ (e = 'E' ∨ e = 'e') then
        match t2.takeWhile isJsSpace, t2.dropWhile isJsSpace with
        | _ :: _, r2 =>
          match r2.takeWhile isDigitJs, r2.dropWhile isDigitJs with
          | _ :: _, r3 => finalClassDesc isColonWs r3
          | _, _ => none
        | _, _ => none
      else none
    | _, _ => none
  | _ => none

/-- The part of the parse-regex match after the opening `-\s+\[([\sxX])\]`:
`\s+(T\d+)(?:\s+\[P\])?(?:\s+\[(US\d+)\])?\s+(.+)$`, building the `Task`
record exactly as the loop body of `parseTasksMd` does.  `line` is the whole
line (needed for `line.includes('[P]')`), `c` the captured bracket
character.  Backtracking out of `(T\d+)` cannot succeed: the character given
back is a digit, and every continuation starts with `\s+`. -/
def idStoryDesc (t5 : List Char) : Option (List Char × Option (List Char) × List Char) :=
  match t5.takeWhile isJsSpace, t5.dropWhile isJsSpace with
  | _ :: _, 'T' :: t7 =>
    match t7.takeWhile isDigitJs, t7.dropWhile isDigitJs with
    | _ :: _, _ =>
      match tagTail (t7.dropWhile isDigitJs) with
      | some (story, desc) => some ('T' :: t7.takeWhile isDigitJs, story, desc)
      | none => none
    | _, _ => none
  | _, _ => none

/-- The record built from the captures, exactly as the loop body of
`parseTasksMd` does: `id.trim()`, `checked.toLowerCase() === 'x'` (over the
class `[\sxX]` this is the test against lowercase and uppercase x),
`description.trim()`, `line.includes('[P]')`, `story?.trim()`. -/
def taskAfterBracket (line : List Char) (c : Char) (t5 : List Char) : Option Task :=
  (idStoryDesc t5).map (fun g =>
    { id := jsTrim g.1,
      completed := c == 'x' || c == 'X',
      description := jsTrim g.2.2,
      phase := [],
      parallel := hasPTag line,
      story := g.2.1.map jsTrim })

/-- The task-line regex
`/^-\s+\[([\sxX])\]\s+(T\d+)(?:\s+\[P\])?(?:\s+\[(US\d+)\])?\s+(.+)$/` of
`parseTasksMd`, applied to one line; `phase` is filled in by the caller
(the loop keeps it in `currentPhase`). -/
def taskOfLine (l : List Char) : Option Task :=
  match l with
  | '-' :: t1 =>
    match t1.takeWhile isJsSpace, t1.dropWhile isJsSpace with
    | _ :: _, '[' :: c :: ']' :: t5 =>
      if isBracketChar c then taskAfterBracket l c t5 else none
    | _, _ => none
  | _ => none

/-- The line loop of `parseTasksMd`: phase headings update `currentPhase`
(trimmed) and are skipped; task lines are emitted with the current phase. -/
def parseTasks : List (List Char) → List Char → List Task
  | [], _ => []
  | l :: ls, ph =>
    match phaseTitle l with
    | some p => parseTasks ls (jsTrim p)
    | none =>
      match taskOfLine l with
      | some t => { t with phase := ph } :: parseTasks ls ph
      | none => parseTasks ls ph

/-- The function `parseTasksMd` applied to the file content (the `readFile` that precedes
it is modelled separately; `currentPhase` starts as the empty string). -/
def parseTasksMd (content : List Char) : List Task :=
  parseTasks (splitLines content) []

/-- The mutator regex `/^(-\s+\[)([\sxX])(\]\s+)(T\d+)(.+)$/` of
`markTaskComplete`, returning the five capture groups.  The only live
backtracking point is `(T\d+)(.+)$`: when the maximal digit run reaches the
end of the line, the engine gives one digit back to `(.+)` (possible only if
the run has at least two digits); when characters remain after the digits,
`(.+)$` must cover exactly them, which succeeds iff none is a
LineTerminator. -/
def matchMut (l : List Char) :
    Option (List Char × Char × List Char × List Char × List Char) :=
  match l with
  | '-' :: t1 =>
    match t1.takeWhile isJsSpace, t1.dropWhile isJsSpace with
    | _ :: _, '[' :: c :: ']' :: t5 =>
      if isBracketChar c then
        match t5.takeWhile isJsSpace, t5.dropWhile isJsSpace with
        | _ :: _, 'T' :: t7 =>
          match t7.takeWhile isDigitJs, t7.dropWhile isDigitJs with
          | ds@(_ :: _), rest@(_ :: _) =>
            if rest.all isDot then
              some ('-' :: t1.takeWhile isJsSpace ++ ['['], c,
                    ']' :: t5.takeWhile isJsSpace, 'T' :: ds, rest)
            else none
          | ds@(_ :: _ :: _), [] =>
            some ('-' :: t1.takeWhile isJsSpace ++ ['['], c,
                  ']' :: t5.takeWhile isJsSpace, 'T' :: ds.dropLast,
                  ds.drop (ds.length - 1))
          | _, _ => none
        | _, _ => none
      else none
    | _, _ => none
  | _ => none

/-- The id (capture group 4) the mutator would see on a line, if the line
matches the mutator regex. -/
def mutId (l : List Char) : Option (List Char) :=
  (matchMut l).map (fun g => g.2.2.2.1)

/-- The body of the `lines.map` of `markTaskComplete`: a line whose capture
group 4 equals the target id is rebuilt as
`` `${m[1]}X${m[3]}${m[4]}${m[5]}` ``; every other line passes through. -/
def mutLine (taskId : List Char) (l : List Char) : List Char :=
  match matchMut l with
  | some (g1, _, g3, g4, g5) =>
    if g4 = taskId then g1 ++ 'X' :: (g3 ++ (g4 ++ g5)) else l
  | none => l

/-- The content transformation of `markTaskComplete` (split, map, join); the
validation and file I/O around it are modelled by `markTaskCompleteRun`. -/
def markTaskComplete (content : List Char) (taskId : List Char) : List Char :=
  joinLines ((splitLines content).map (mutLine taskId))

/-- The id a line would contribute to `parseTasksMd`: none for a phase
heading (the loop `continue`s) and for a non-task line, the parsed id
otherwise. -/
def lineTaskId (l : List Char) : Option (List Char) :=
  match phaseTitle l with
  | some _ => none
  | none => (taskOfLine l).map (fun t => t.id)

/-- Stated from the spec's positional description of phase attribution: the
phase of a task is the trimmed title of the nearest (i.e. last) phase-heading
line among the lines preceding it, or the empty string when no phase heading
precedes it. -/
def nearestPhase (pre : List (List Char)) : List Char :=
  (((pre.filterMap phaseTitle).getLast?).map jsTrim).getD []

/-- Stated from the spec's positional description: walk the lines keeping the
full list `pre` of preceding lines; every task line is emitted with
`nearestPhase pre` as its phase. -/
def tasksWithNearestPhase : List (List Char) → List (List Char) → List Task
  | _, [] => []
  | pre, l :: ls =>
    match phaseTitle l with
    | some _ => tasksWithNearestPhase (pre ++ [l]) ls
    | none =>
      match taskOfLine l with
      | some t => { t with phase := nearestPhase pre } :: tasksWithNearestPhase (pre ++ [l]) ls
      | none => tasksWithNearestPhase (pre ++ [l]) ls

/-! ### File-system level model of `markTaskComplete`

`markTaskComplete(filePath, taskId)` first validates its two arguments
(`if (!filePath) throw`, `if (!taskId || !taskId.trim()) throw`), then calls
`readFile` and finally `writeFile`.  The file system is a partial map from
paths to contents, and the I/O operations performed are recorded as an event
trace; a thrown `Error` is an `Except.error` carrying its message. -/

inductive FsEvent where
  | read (path : List Char)
  | write (path : List Char) (content : List Char)
deriving DecidableEq, Repr

/-- The function `markTaskComplete` with its validation and file I/O.  `readFile` rejects
a missing file with `Failed to read file …`; on success the rewritten
content is written back to the same path. -/
def markTaskCompleteRun (fs : List Char → Option (List Char))
    (filePath taskId : List Char) : List FsEvent × Except (List Char) Unit :=
  if filePath = [] then
    ([], Except.error ("File path is required").toList)
  else if taskId = [] ∨ jsTrim taskId = [] then
    ([], Except.error ("Task ID is required").toList)
  else
    match fs filePath with
    | none => ([FsEvent.read filePath],
        Except.error (("Failed to read file ").toList ++ filePath))
    | some content =>
      ([FsEvent.read filePath, FsEvent.write filePath (markTaskComplete content taskId)],
        Except.ok ())

/-! ### The workflow-state store (`src/utils/state.ts`) -/

/-- The `currentStep` enumeration of `WorkflowState`. -/
inductive Step where
  | specify | clarify | plan | tasks | implement | review | complete
deriving DecidableEq, Repr

/-- A JSON-like value stored in a step-status payload. -/
inductive JsVal where
  | str (s : String)
  | num (n : Int)
  | bool (b : Bool)
  | arr (vs : List JsVal)
  | null

/-- A JavaScript object as an association list; lookups take the first
binding (the lists built here never repeat a key). -/
abbrev JsObj := List (String × JsVal)

/-- Property lookup on an object. -/
def objGet : JsObj → String → Option JsVal
  | [], _ => none
  | (k', v) :: rest, k => if k' = k then some v else objGet rest k

/-- The object spread `{...a, ...b}`: keys of `a` in order, with values
overridden by `b` where present, followed by the keys only `b` has. -/
def spread (a b : JsObj) : JsObj :=
  a.map (fun kv => match objGet b kv.1 with
    | some v => (kv.1, v)
    | none => kv) ++
  b.filter (fun kv => (objGet a kv.1).isNone)

/-- The `WorkflowState` record.  `stepStatus` has one optional payload per
step; the TypeScript payloads are step-specific duck-typed objects, modelled
uniformly as `JsObj`.  `metadata` is likewise an object. -/
structure WorkflowState where
  featureDir : String
  currentStep : Step
  stepStatus : Step → Option JsObj
  metadata : JsObj

/-- What a stored state file can hold for `getWorkflowState`: content that
`JSON.parse` rejects, or content it accepts — the parse result is cast
unchecked (`as WorkflowState`), so an accepted document is modelled directly
as a state value. -/
inductive StateFile where
  | malformed
  | parsed (s : WorkflowState)

/-- The file system seen by the state store: a partial map from paths to
state-file contents. -/
def Fs := String → Option StateFile

/-- The constant `STATE_FILE = '.speckit-workflow-state.json'`. -/
def STATE_FILE : String := ".speckit-workflow-state.json"

/-- The path `path.join(featureDir, STATE_FILE)` (POSIX join of a directory and a
plain file name). -/
def statePath (featureDir : String) : String :=
  featureDir ++ "/" ++ STATE_FILE

/-- The function `getWorkflowState`: absent file ⇒ `null`; `JSON.parse` failure is caught
and also yields `null`; otherwise the parsed state.  The function never
throws, which is why its result is a plain `Option`. -/
def getWorkflowState (fs : Fs) (featureDir : String) : Option WorkflowState :=
  match fs (statePath featureDir) with
  | none => none
  | some StateFile.malformed => none
  | some (StateFile.parsed s) => some s

/-- The function `setWorkflowState`: serialise and write the state to the state path of
`state.featureDir`. -/
def setWorkflowState (fs : Fs) (state : WorkflowState) : Fs :=
  fun p => if p = statePath state.featureDir then some (StateFile.parsed state) else fs p

/-- The function `initWorkflowState`: build a fresh state (`currentStep = specify`, empty
`stepStatus`, `startedAt` = current instant, passed in as `now`), write it,
return it. -/
def initWorkflowState (fs : Fs) (featureDir description now : String) :
    WorkflowState × Fs :=
  let st : WorkflowState :=
    { featureDir := featureDir,
      currentStep := Step.specify,
      stepStatus := fun _ => none,
      metadata := [("startedAt", JsVal.str now), ("featureDescription", JsVal.str description)] }
  (st, setWorkflowState fs st)

/-- The function `updateWorkflowState`: read the state (initialising with an empty
description when absent), set `currentStep = step`, replace
`stepStatus[step]` by `{...state.stepStatus[step], ...stepData,
completed: true}`, write the state back and return it.  The TypeScript
parameter type `Exclude<…, 'complete'>` is compile-time only; the runtime
function is uniform in the step value, so `step` ranges over all of `Step`. -/
def updateWorkflowState (fs : Fs) (featureDir : String) (step : Step)
    (stepData : JsObj) (now : String) : WorkflowState × Fs :=
  let read := getWorkflowState fs featureDir
  let st0fs0 : WorkflowState × Fs :=
    match read with
    | some s => (s, fs)
    | none => initWorkflowState fs featureDir ("") now
  let st0 := st0fs0.1
  let merged := spread (spread ((st0.stepStatus step).getD []) stepData)
    [("completed", JsVal.bool true)]
  let st1 : WorkflowState :=
    { st0 with
      currentStep := step,
      stepStatus := fun s => if s = step then some merged else st0.stepStatus s }
  (st1, setWorkflowState st0fs0.2 st1)

/-! ### Generic list lemmas -/

theorem mem_takeWhile_sat {α} (p : α → Bool) :
    ∀ (l : List α) (a : α), a ∈ l.takeWhile p → p a = true
  | x :: xs, a, h => by
    by_cases hx : p x = true
    · rw [List.takeWhile_cons, if_pos hx] at h
      rcases List.mem_cons.mp h with rfl | h'
      · exact hx
      · exact mem_takeWhile_sat p xs a h'
    · rw [List.takeWhile_cons, if_neg hx] at h
      exact absurd h (List.not_mem_nil a)

theorem span_append {α} (p : α → Bool) :
    ∀ (xs : List α) (y : α) (ys : List α),
      (∀ a ∈ xs, p a = true) → p y = false →
      (xs ++ y :: ys).takeWhile p = xs ∧ (xs ++ y :: ys).dropWhile p = y :: ys
  | [], y, ys, _, hy => by
    simp [List.takeWhile_cons, List.dropWhile_cons, hy]
  | x :: xs, y, ys, hxs, hy => by
    have hx : p x = true := hxs x (List.mem_cons_self x xs)
    have ih := span_append p xs y ys (fun a ha => hxs a (List.mem_cons_of_mem x ha)) hy
    simp [List.takeWhile_cons, List.dropWhile_cons, hx, ih.1, ih.2]

theorem dropWhile_head_false {α} (p : α → Bool) :
    ∀ (l : List α) (y : α) (ys : List α), l.dropWhile p = y :: ys → p y = false
  | [], y, ys, h => by simp at h
  | x :: xs, y, ys, h => by
    by_cases hx : p x = true
    · rw [List.dropWhile_cons, if_pos hx] at h
      exact dropWhile_head_false p xs y ys h
    · rw [List.dropWhile_cons, if_neg hx] at h
      cases h
      exact eq_false_of_ne_true hx

theorem set_append_len {α} :
    ∀ (xs : List α) (c v : α) (ys : List α),
      (xs ++ c :: ys).set xs.length v = xs ++ v :: ys
  | [], _, _, _ => rfl
  | x :: xs, c, v, ys => congrArg (x :: ·) (set_append_len xs c v ys)

theorem getD_append_len {α} :
    ∀ (xs : List α) (c : α) (ys : List α) (d : α),
      (xs ++ c :: ys).getD xs.length d = c
  | [], _, _, _ => rfl
  | _ :: xs, c, ys, d => getD_append_len xs c ys d

theorem getD_map_lt {α β} (f : α → β) :
    ∀ (l : List α) (j : Nat), j < l.length → ∀ (d : α) (d' : β),
      (l.map f).getD j d' = f (l.getD j d)
  | _ :: _, 0, _, _, _ => rfl
  | _ :: l, j + 1, h, d, d' =>
    getD_map_lt f l j (Nat.lt_of_succ_lt_succ h) d d'

theorem getD_ge {α} :
    ∀ (l : List α) (j : Nat) (d : α), l.length ≤ j → l.getD j d = d
  | [], _, _, _ => rfl
  | a :: l, j + 1, d, h => getD_ge l j d (Nat.le_of_succ_le_succ h)
  | a :: l, 0, d, h => absurd h (by simp)

theorem dropLast_append_drop_pred {α} :
    ∀ (l : List α), l.dropLast ++ l.drop (l.length - 1) = l
  | [] => rfl
  | [_] => rfl
  | a :: b :: t => congrArg (a :: ·) (dropLast_append_drop_pred (b :: t))

/-! ### Lemmas about `splitLines` / `joinLines` -/

theorem splitLines_ne_nil : ∀ (s : List Char), splitLines s ≠ []
  | [] => by simp [splitLines]
  | c :: cs => by
    by_cases h : c = '\n'
    · simp [splitLines, h]
    · have := splitLines_ne_nil cs
      simp only [splitLines, if_neg h]
      match hs : splitLines cs with
      | [] => simp
      | l :: ls => simp

theorem joinLines_cons_cons (c : Char) (l : List Char) (ls : List (List Char)) :
    joinLines ((c :: l) :: ls) = c :: joinLines (l :: ls) := by
  cases ls <;> rfl

theorem joinLines_splitLines : ∀ (s : List Char), joinLines (splitLines s) = s
  | [] => rfl
  | c :: cs => by
    by_cases h : c = '\n'
    · subst h
      have hne := splitLines_ne_nil cs
      simp only [splitLines, if_pos rfl]
      match hs : splitLines cs with
      | [] => exact absurd hs hne
      | l :: ls =>
        have ih := joinLines_splitLines cs
        rw [hs] at ih
        calc joinLines ([] :: l :: ls) = '\n' :: joinLines (l :: ls) := rfl
          _ = '\n' :: cs := by rw [ih]
    · have hne := splitLines_ne_nil cs
      simp only [splitLines, if_neg h]
      match hs : splitLines cs with
      | [] => exact absurd hs hne
      | l :: ls =>
        have ih := joinLines_splitLines cs
        rw [hs] at ih
        rw [joinLines_cons_cons, ih]

theorem splitLines_no_newline :
    ∀ (l : List Char), '\n' ∉ l → splitLines l = [l]
  | [], _ => rfl
  | c :: cs, h => by
    have hc : ¬ c = '\n' := fun hc => h (hc ▸ List.mem_cons_self c cs)
    have ih := splitLines_no_newline cs (fun hm => h (List.mem_cons_of_mem c hm))
    simp only [splitLines, if_neg hc, ih]

theorem splitLines_append_newline :
    ∀ (l : List Char), '\n' ∉ l →
      ∀ (t : List Char), splitLines (l ++ '\n' :: t) = l :: splitLines t
  | [], _, t => by simp [splitLines]
  | c :: cs, h, t => by
    have hc : ¬ c = '\n' := fun hc => h (hc ▸ List.mem_cons_self c cs)
    have ih := splitLines_append_newline cs (fun hm => h (List.mem_cons_of_mem c hm)) t
    simp only [List.cons_append, splitLines, if_neg hc, List.append_eq, ih]

theorem splitLines_joinLines :
    ∀ (ls : List (List Char)), ls ≠ [] → (∀ l ∈ ls, '\n' ∉ l) →
      splitLines (joinLines ls) = ls
  | [], h, _ => absurd rfl h
  | [l], _, hnl => by
    have : joinLines [l] = l := rfl
    rw [this, splitLines_no_newline l (hnl l (List.mem_cons_self l []))]
  | l :: l' :: ls, _, hnl => by
    have h1 : '\n' ∉ l := hnl l (List.mem_cons_self l _)
    have ih := splitLines_joinLines (l' :: ls) (by simp)
      (fun x hx => hnl x (List.mem_cons_of_mem l hx))
    calc splitLines (joinLines (l :: l' :: ls))
        = splitLines (l ++ '\n' :: joinLines (l' :: ls)) := rfl
      _ = l :: splitLines (joinLines (l' :: ls)) := splitLines_append_newline l h1 _
      _ = l :: l' :: ls := by rw [ih]

/-! ### Inversion of the mutator regex match -/

theorem matchMut_parts {l g1 g3 g4 g5 : List Char} {c : Char}
    (h : matchMut l = some (g1, c, g3, g4, g5)) :
    l = g1 ++ c :: (g3 ++ (g4 ++ g5)) ∧ isBracketChar c = true ∧
      (∃ ws1, g1 = '-' :: ws1 ++ ['['] ∧ ws1 ≠ [] ∧ ∀ a ∈ ws1, isJsSpace a = true) ∧
      (∃ ws2, g3 = ']' :: ws2 ∧ ws2 ≠ [] ∧ ∀ a ∈ ws2, isJsSpace a = true) ∧
      (∃ ds, g4 = 'T' :: ds ∧ ds ≠ [] ∧ ∀ a ∈ ds, isDigitJs a = true) := by
  unfold matchMut at h
  repeat' split at h
  all_goals try exact Option.noConfusion h
  · rename_i l t1 x5 x4 w1 ws1 c' t5 heq1 heq2 hc x3 x2 w2 ws2 t7 heq3 heq4 x1 x0 d1 ds1 r1 rs1 heq5 heq6 hdot
    have ht1 : t1 = (w1 :: ws1) ++ '[' :: c' :: ']' :: t5 := by
      conv_lhs => rw [← List.takeWhile_append_dropWhile (p := isJsSpace) (l := t1)]
      rw [heq1, heq2]
    have ht5 : t5 = (w2 :: ws2) ++ 'T' :: t7 := by
      conv_lhs => rw [← List.takeWhile_append_dropWhile (p := isJsSpace) (l := t5)]
      rw [heq3, heq4]
    have ht7 : t7 = (d1 :: ds1) ++ (r1 :: rs1) := by
      conv_lhs => rw [← List.takeWhile_append_dropWhile (p := isDigitJs) (l := t7)]
      rw [heq5, heq6]
    simp only [Option.some.injEq, Prod.mk.injEq] at h
    obtain ⟨hg1, hcc, hg3, hg4, hg5⟩ := h
    subst hg1 hcc hg3 hg4 hg5
    rw [heq1, heq3]
    refine ⟨?_, hc, ⟨w1 :: ws1, rfl, by simp, fun a ha => mem_takeWhile_sat _ t1 a (heq1 ▸ ha)⟩,
      ⟨w2 :: ws2, rfl, by simp, fun a ha => mem_takeWhile_sat _ t5 a (heq3 ▸ ha)⟩,
      ⟨d1 :: ds1, rfl, by simp, fun a ha => mem_takeWhile_sat _ t7 a (heq5 ▸ ha)⟩⟩
    rw [ht1, ht5, ht7]
    simp
  · rename_i l t1 x5 x4 w1 ws1 c' t5 heq1 heq2 hc x3 x2 w2 ws2 t7 heq3 heq4 x1 x0 d1 d2 ds1 heq5 heq6
    have ht1 : t1 = (w1 :: ws1) ++ '[' :: c' :: ']' :: t5 := by
      conv_lhs => rw [← List.takeWhile_append_dropWhile (p := isJsSpace) (l := t1)]
      rw [heq1, heq2]
    have ht5 : t5 = (w2 :: ws2) ++ 'T' :: t7 := by
      conv_lhs => rw [← List.takeWhile_append_dropWhile (p := isJsSpace) (l := t5)]
      rw [heq3, heq4]
    have ht7 : t7 = (d1 :: d2 :: ds1) ++ [] := by
      conv_lhs => rw [← List.takeWhile_append_dropWhile (p := isDigitJs) (l := t7)]
      rw [heq5, heq6]
    simp only [Option.some.injEq, Prod.mk.injEq] at h
    obtain ⟨hg1, hcc, hg3, hg4, hg5⟩ := h
    subst hg1 hcc hg3 hg4 hg5
    rw [heq1, heq3]
    refine ⟨?_, hc, ⟨w1 :: ws1, rfl, by simp, fun a ha => mem_takeWhile_sat _ t1 a (heq1 ▸ ha)⟩,
      ⟨w2 :: ws2, rfl, by simp, fun a ha => mem_takeWhile_sat _ t5 a (heq3 ▸ ha)⟩,
      ⟨(d1 :: d2 :: ds1).dropLast, rfl, by simp, fun a ha =>
        mem_takeWhile_sat _ t7 a (heq5 ▸ List.dropLast_subset _ ha)⟩⟩
    rw [ht1, ht5, ht7]
    have hd : ('T' :: (d1 :: d2 :: ds1).dropLast) ++
        List.drop ((d1 :: d2 :: ds1).length - 1) (d1 :: d2 :: ds1) = 'T' :: (d1 :: d2 :: ds1) := by
      rw [List.cons_append, dropLast_append_drop_pred]
    simp [← hd]

/-- A line the mutator regex does not match with the target id passes through
`mutLine` unchanged. -/
theorem mutLine_eq_of_ne {taskId l : List Char} (h : mutId l ≠ some taskId) :
    mutLine taskId l = l := by
  unfold mutLine
  match hm : matchMut l with
  | none => rfl
  | some (g1, c, g3, g4, g5) =>
    have : g4 ≠ taskId := fun he => h (by simp [mutId, hm, he])
    simp [this]

/-- A line the mutator regex matches with the target id is rewritten to the
reconstruction with an uppercase X bracket. -/
theorem mutLine_eq_of_match {taskId l g1 g3 g4 g5 : List Char} {c : Char}
    (hm : matchMut l = some (g1, c, g3, g4, g5)) (hid : g4 = taskId) :
    mutLine taskId l = g1 ++ 'X' :: (g3 ++ (g4 ++ g5)) := by
  unfold mutLine
  rw [hm]
  simp [hid]

/-- The rewrite of a matched line changes exactly the bracket character:
it equals the original line with position `g1.length` set to X. -/
theorem mutLine_set_of_match {taskId l g1 g3 g4 g5 : List Char} {c : Char}
    (hm : matchMut l = some (g1, c, g3, g4, g5)) (hid : g4 = taskId) :
    mutLine taskId l = l.set g1.length 'X' := by
  have hparts := matchMut_parts hm
  rw [mutLine_eq_of_match hm hid, hparts.1, set_append_len]

/-- The map `mutLine` introduces no newline character. -/
theorem mutLine_no_newline {taskId l : List Char} (h : '\n' ∉ l) :
    '\n' ∉ mutLine taskId l := by
  match hm : matchMut l with
  | none => rw [mutLine, hm]; exact h
  | some (g1, c, g3, g4, g5) =>
    by_cases hid : g4 = taskId
    · rw [mutLine_eq_of_match hm hid]
      have hparts := (matchMut_parts hm).1
      intro hmem
      rw [List.mem_append, List.mem_cons] at hmem
      rcases hmem with h1 | h2 | h3
      · exact h (hparts ▸ (List.mem_append.mpr (Or.inl h1)))
      · exact absurd h2.symm (by decide)
      · exact h (hparts ▸ (List.mem_append.mpr (Or.inr (List.mem_cons_of_mem _ h3))))
    · rw [mutLine, hm]; simp only [hid, if_false]; exact h

/-! ### Character-class and trim lemmas -/

theorem digit_not_space {a : Char} (h : isDigitJs a = true) : isJsSpace a = false := by
  simp only [isDigitJs, Bool.and_eq_true, decide_eq_true_eq] at h
  simp only [isJsSpace, Bool.or_eq_false_iff, Bool.and_eq_false_iff,
    decide_eq_false_iff_not]
  omega

theorem dropWhile_eq_self_of_none {p : Char → Bool} :
    ∀ (l : List Char), (∀ a ∈ l, p a = false) → l.dropWhile p = l
  | [], _ => rfl
  | c :: cs, h => by
    rw [List.dropWhile_cons, if_neg]
    rw [h c (List.mem_cons_self c cs)]
    simp

theorem jsTrim_eq_self {l : List Char} (h : ∀ a ∈ l, isJsSpace a = false) :
    jsTrim l = l := by
  unfold jsTrim
  rw [dropWhile_eq_self_of_none l h,
    dropWhile_eq_self_of_none l.reverse (fun a ha => h a (List.mem_reverse.mp ha)),
    List.reverse_reverse]

/-! ### Per-line behaviour of the parse regex on mutated lines -/

theorem phaseTitle_cons_dash (t : List Char) : phaseTitle ('-' :: t) = none := rfl

theorem taskOfLine_cons_dash (t1 : List Char) :
    taskOfLine ('-' :: t1) =
      (match t1.takeWhile isJsSpace, t1.dropWhile isJsSpace with
        | _ :: _, '[' :: c :: ']' :: t5 =>
          if isBracketChar c then taskAfterBracket ('-' :: t1) c t5 else none
        | _, _ => none) := rfl

theorem taskOfLine_decomp {ws1 : List Char} (hne : ws1 ≠ [])
    (hall : ∀ a ∈ ws1, isJsSpace a = true) {c : Char} (hc : isBracketChar c = true)
    (t5 : List Char) :
    taskOfLine ('-' :: ws1 ++ '[' :: c :: ']' :: t5) =
      taskAfterBracket ('-' :: ws1 ++ '[' :: c :: ']' :: t5) c t5 := by
  match ws1, hne with
  | w :: ws, _ =>
    have hsp := span_append isJsSpace (w :: ws) '[' (c :: ']' :: t5) hall (by decide)
    show taskOfLine ('-' :: ((w :: ws) ++ '[' :: c :: ']' :: t5)) = _
    rw [taskOfLine_cons_dash, hsp.1, hsp.2]
    simp [hc]

theorem taskAfterBracket_map_id (line line' : List Char) (c c' : Char) (t5 : List Char) :
    (taskAfterBracket line c t5).map (fun t => t.id) =
      (taskAfterBracket line' c' t5).map (fun t => t.id) := by
  unfold taskAfterBracket
  cases idStoryDesc t5 <;> rfl

theorem phaseTitle_mutLine (tid l : List Char) :
    phaseTitle (mutLine tid l) = phaseTitle l := by
  match hm : matchMut l with
  | none =>
    have : mutLine tid l = l := by unfold mutLine; rw [hm]
    rw [this]
  | some (g1, c, g3, g4, g5) =>
    by_cases hid : g4 = tid
    · obtain ⟨hl, hc, ⟨ws1, hg1, _, _⟩, _, _⟩ := matchMut_parts hm
      rw [mutLine_eq_of_match hm hid, hl, hg1]
      simp only [List.cons_append, List.append_assoc]
      rw [phaseTitle_cons_dash, phaseTitle_cons_dash]
    · have : mutLine tid l = l := by unfold mutLine; rw [hm]; simp [hid]
      rw [this]

theorem taskOfLine_mutLine_id (tid l : List Char) :
    (taskOfLine (mutLine tid l)).map (fun t => t.id) =
      (taskOfLine l).map (fun t => t.id) := by
  match hm : matchMut l with
  | none =>
    have : mutLine tid l = l := by unfold mutLine; rw [hm]
    rw [this]
  | some (g1, c, g3, g4, g5) =>
    by_cases hid : g4 = tid
    · obtain ⟨hl, hc, ⟨ws1, hg1, hws1ne, hws1⟩, ⟨ws2, hg3, _, _⟩, _⟩ := matchMut_parts hm
      have hshape : ∀ ch : Char,
          ('-' :: ws1 ++ ['[']) ++ ch :: (']' :: ws2 ++ (g4 ++ g5)) =
            '-' :: ws1 ++ '[' :: ch :: ']' :: (ws2 ++ (g4 ++ g5)) := by
        intro ch; simp
      rw [mutLine_eq_of_match hm hid, hl, hg1, hg3]
      rw [hshape, hshape]
      rw [taskOfLine_decomp hws1ne hws1 (by decide) _,
        taskOfLine_decomp hws1ne hws1 hc _]
      exact taskAfterBracket_map_id _ _ _ _ _
    · have : mutLine tid l = l := by unfold mutLine; rw [hm]; simp [hid]
      rw [this]

theorem lineTaskId_mutLine (tid l : List Char) :
    lineTaskId (mutLine tid l) = lineTaskId l := by
  unfold lineTaskId
  rw [phaseTitle_mutLine]
  cases phaseTitle l
  · exact taskOfLine_mutLine_id tid l
  · rfl

/-! ### Lines of a document and of its rewritten form -/

theorem mem_splitLines_no_newline :
    ∀ (s : List Char) (l : List Char), l ∈ splitLines s → '\n' ∉ l
  | [], l, hl => by
    simp only [splitLines, List.mem_singleton] at hl
    subst hl; simp
  | c :: cs, l, hl => by
    by_cases hc : c = '\n'
    · simp only [splitLines, if_pos hc] at hl
      rcases List.mem_cons.mp hl with rfl | h'
      · simp
      · exact mem_splitLines_no_newline cs l h'
    · simp only [splitLines, if_neg hc] at hl
      match hs : splitLines cs with
      | [] => exact absurd hs (splitLines_ne_nil cs)
      | l0 :: ls =>
        rw [hs] at hl
        rcases List.mem_cons.mp hl with rfl | h'
        · intro hmem
          rcases List.mem_cons.mp hmem with h1 | h2
          · exact hc h1.symm
          · exact mem_splitLines_no_newline cs l0 (hs ▸ List.mem_cons_self l0 ls) h2
        · exact mem_splitLines_no_newline cs l (hs ▸ List.mem_cons_of_mem l0 h')

/-- The lines of the rewritten document are exactly the mapped lines of the
original: splitting undoes the final `join('\n')`. -/
theorem splitLines_markTaskComplete (doc tid : List Char) :
    splitLines (markTaskComplete doc tid) = (splitLines doc).map (mutLine tid) := by
  unfold markTaskComplete
  apply splitLines_joinLines
  · intro hmap
    exact splitLines_ne_nil doc (List.map_eq_nil_iff.mp hmap)
  · intro l hl
    rw [List.mem_map] at hl
    obtain ⟨l0, hl0, rfl⟩ := hl
    exact mutLine_no_newline (mem_splitLines_no_newline doc l0 hl0)

/-! ### Order and stability of parsed ids -/

theorem parseTasks_map_id :
    ∀ (ls : List (List Char)) (ph : List Char),
      (parseTasks ls ph).map (fun t => t.id) = ls.filterMap lineTaskId
  | [], _ => rfl
  | l :: ls, ph => by
    rw [parseTasks, List.filterMap_cons]
    unfold lineTaskId
    cases hpt : phaseTitle l with
    | some p => exact parseTasks_map_id ls (jsTrim p)
    | none =>
      cases hto : taskOfLine l with
      | none => simpa using parseTasks_map_id ls ph
      | some t => simpa using parseTasks_map_id ls ph

theorem parseTasks_mutLine_id (tid : List Char) :
    ∀ (ls : List (List Char)) (ph : List Char),
      (parseTasks (ls.map (mutLine tid)) ph).map (fun t => t.id) =
        (parseTasks ls ph).map (fun t => t.id)
  | [], _ => rfl
  | l :: ls, ph => by
    have hph := phaseTitle_mutLine tid l
    have hid := taskOfLine_mutLine_id tid l
    rw [List.map_cons, parseTasks, parseTasks, hph]
    cases hpt : phaseTitle l with
    | some p => exact parseTasks_mutLine_id tid ls (jsTrim p)
    | none =>
      cases hto : taskOfLine l with
      | none =>
        rw [hto] at hid
        simp only [Option.map_none'] at hid
        rw [Option.map_eq_none'.mp hid]
        exact parseTasks_mutLine_id tid ls ph
      | some t =>
        rw [hto] at hid
        simp only [Option.map_some'] at hid
        obtain ⟨t', ht', hidEq⟩ := Option.map_eq_some'.mp hid
        rw [ht']
        simp only [List.map_cons]
        rw [parseTasks_mutLine_id tid ls ph, hidEq]

/-! ### Positional phase attribution -/

theorem nearestPhase_append_phase {pre : List (List Char)} {l p : List Char}
    (h : phaseTitle l = some p) : nearestPhase (pre ++ [l]) = jsTrim p := by
  unfold nearestPhase
  rw [List.filterMap_append]
  have hl : List.filterMap phaseTitle [l] = [p] := by
    rw [List.filterMap_cons, h]; rfl
  rw [hl, List.getLast?_concat]
  rfl

theorem nearestPhase_append_noPhase {pre : List (List Char)} {l : List Char}
    (h : phaseTitle l = none) : nearestPhase (pre ++ [l]) = nearestPhase pre := by
  unfold nearestPhase
  rw [List.filterMap_append]
  have hl : List.filterMap phaseTitle [l] = [] := by
    rw [List.filterMap_cons, h]; rfl
  rw [hl, List.append_nil]

theorem tasksWithNearestPhase_eq :
    ∀ (ls pre : List (List Char)),
      tasksWithNearestPhase pre ls = parseTasks ls (nearestPhase pre)
  | [], _ => rfl
  | l :: ls, pre => by
    rw [tasksWithNearestPhase, parseTasks]
    cases hpt : phaseTitle l with
    | some p =>
      rw [tasksWithNearestPhase_eq ls (pre ++ [l]), nearestPhase_append_phase hpt]
    | none =>
      cases hto : taskOfLine l
      · rw [tasksWithNearestPhase_eq ls (pre ++ [l]), nearestPhase_append_noPhase hpt]
      · rw [tasksWithNearestPhase_eq ls (pre ++ [l]), nearestPhase_append_noPhase hpt]

/-! ### Story-capture shape -/

theorem consumeUS_story {t st r : List Char} (h : consumeUS t = some (st, r)) :
    ∃ ds, ds ≠ [] ∧ (∀ a ∈ ds, isDigitJs a = true) ∧ st = 'U' :: 'S' :: ds := by
  unfold consumeUS at h
  repeat' split at h
  all_goals try exact Option.noConfusion h
  rename_i hTake hDrop
  simp only [Option.some.injEq, Prod.mk.injEq] at h
  obtain ⟨h1, h2⟩ := h
  refine ⟨_, ?_, ?_, h1.symm⟩
  · rw [hTake]; simp
  · intro a ha; exact mem_takeWhile_sat _ _ a ha

theorem storyTail_story {t st d : List Char}
    (h : storyTail t = some (some st, d)) :
    ∃ ds, ds ≠ [] ∧ (∀ a ∈ ds, isDigitJs a = true) ∧ st = 'U' :: 'S' :: ds := by
  cases hUS : consumeUS t with
  | none =>
    have hred : storyTail t = (finalWsDesc t).map (fun d => (none, d)) := by
      unfold storyTail; rw [hUS]
    rw [hred] at h
    cases hf : finalWsDesc t <;> rw [hf] at h <;> simp at h
  | some pr =>
    obtain ⟨st', r⟩ := pr
    have hred : storyTail t =
        (match finalWsDesc r with
          | some d => some (some st', d)
          | none => (finalWsDesc t).map (fun d => (none, d))) := by
      unfold storyTail; rw [hUS]
    rw [hred] at h
    cases hf : finalWsDesc r with
    | some d' =>
      rw [hf] at h
      simp only [Option.some.injEq, Prod.mk.injEq, Option.some.injEq] at h
      exact h.1 ▸ consumeUS_story hUS
    | none =>
      rw [hf] at h
      cases hf2 : finalWsDesc t <;> rw [hf2] at h <;> simp at h

theorem tagTail_story {t st d : List Char}
    (h : tagTail t = some (some st, d)) :
    ∃ ds, ds ≠ [] ∧ (∀ a ∈ ds, isDigitJs a = true) ∧ st = 'U' :: 'S' :: ds := by
  cases hP : consumeP t with
  | none =>
    have hred : tagTail t = storyTail t := by
      unfold tagTail; rw [hP]
    rw [hred] at h
    exact storyTail_story h
  | some r =>
    have hred : tagTail t =
        (match storyTail r with
          | some x => some x
          | none => storyTail t) := by
      unfold tagTail; rw [hP]
    rw [hred] at h
    cases hs : storyTail r with
    | some x =>
      rw [hs] at h
      cases h
      exact storyTail_story hs
    | none =>
      rw [hs] at h
      exact storyTail_story h

theorem idStoryDesc_story {t5 i st d : List Char}
    (h : idStoryDesc t5 = some (i, some st, d)) :
    ∃ ds, ds ≠ [] ∧ (∀ a ∈ ds, isDigitJs a = true) ∧ st = 'U' :: 'S' :: ds := by
  unfold idStoryDesc at h
  repeat' split at h
  all_goals try exact Option.noConfusion h
  rename_i story desc htt
  simp only [Option.some.injEq, Prod.mk.injEq] at h
  obtain ⟨h1, h2, h3⟩ := h
  rw [h2] at htt
  exact tagTail_story htt

theorem taskOfLine_story {l : List Char} {tsk : Task}
    (h : taskOfLine l = some tsk) :
    tsk.story = none ∨
      ∃ ds, ds ≠ [] ∧ (∀ a ∈ ds, isDigitJs a = true) ∧
        tsk.story = some ('U' :: 'S' :: ds) := by
  unfold taskOfLine at h
  repeat' split at h
  all_goals try exact Option.noConfusion h
  rename_i c t5 hq1 hq2 hbr
  unfold taskAfterBracket at h
  cases hg : idStoryDesc t5 with
  | none => rw [hg] at h; exact Option.noConfusion h
  | some g =>
    obtain ⟨i, story, desc⟩ := g
    rw [hg] at h
    simp only [Option.map_some', Option.some.injEq] at h
    cases hstory : story with
    | none =>
      left
      rw [← h, hstory]
      rfl
    | some st =>
      right
      obtain ⟨ds, hne, hdig, hshape⟩ := idStoryDesc_story (hstory ▸ hg)
      refine ⟨ds, hne, hdig, ?_⟩
      rw [← h, hstory]
      show some (jsTrim st) = some ('U' :: 'S' :: ds)
      rw [hshape, jsTrim_eq_self]
      intro a ha
      rcases List.mem_cons.mp ha with rfl | ha'
      · decide
      rcases List.mem_cons.mp ha' with rfl | ha''
      · decide
      · exact digit_not_space (hdig a ha'')

/-! ### Object-spread algebra -/

theorem objGet_append :
    ∀ (X Y : JsObj) (k : String),
      objGet (X ++ Y) k =
        (match objGet X k with
          | some v => some v
          | none => objGet Y k)
  | [], _, _ => rfl
  | (k0, v0) :: X, Y, k => by
    show objGet ((k0, v0) :: (X ++ Y)) k = _
    by_cases hk : k0 = k
    · simp [objGet, hk]
    · simp only [objGet, if_neg hk]
      exact objGet_append X Y k

theorem objGet_mapOverride (b : JsObj) (k : String) :
    ∀ (a : JsObj),
      objGet (a.map (fun kv =>
          match objGet b kv.1 with
          | some v => (kv.1, v)
          | none => kv)) k =
        (match objGet a k with
          | none => none
          | some v0 =>
            match objGet b k with
            | some v => some v
            | none => some v0)
  | [] => rfl
  | (k0, v0) :: a => by
    by_cases hk : k0 = k
    · subst hk
      cases hb : objGet b k0 <;> simp [objGet, hb]
    · cases hb : objGet b k0 <;>
        simp only [List.map_cons, hb, objGet, if_neg hk] <;>
        exact objGet_mapOverride b k a

theorem objGet_filterKey (q : String → Bool) (k : String) :
    ∀ (b : JsObj),
      objGet (b.filter (fun kv => q kv.1)) k =
        (if q k then objGet b k else none)
  | [] => by simp [objGet]
  | (k0, v0) :: b => by
    by_cases hk : k0 = k
    · subst hk
      by_cases hq : q k0
      · simp [List.filter_cons, hq, objGet]
      · simp only [List.filter_cons]
        rw [if_neg (by simpa using hq)]
        rw [objGet_filterKey q k0 b, if_neg hq, if_neg hq]
    · by_cases hq : q k0
      · simp only [List.filter_cons]
        rw [if_pos (by simpa using hq)]
        simp only [objGet, if_neg hk]
        exact objGet_filterKey q k b
      · simp only [List.filter_cons]
        rw [if_neg (by simpa using hq)]
        have hskip : objGet ((k0, v0) :: b) k = objGet b k := by
          simp only [objGet, if_neg hk]
        rw [hskip]
        exact objGet_filterKey q k b

/-- Lookup distributes over the object spread: the right object wins. -/
theorem objGet_spread (a b : JsObj) (k : String) :
    objGet (spread a b) k =
      (match objGet b k with
        | some v => some v
        | none => objGet a k) := by
  unfold spread
  rw [objGet_append, objGet_mapOverride]
  have hfil := objGet_filterKey (fun k0 => (objGet a k0).isNone) k b
  cases ha : objGet a k with
  | some v0 =>
    cases hb : objGet b k <;> rfl
  | none =>
    simp only []
    rw [hfil, ha]
    simp only [Option.isNone_none, if_true]
    cases hb : objGet b k <;> rfl

theorem objGet_spread_of_some {a b : JsObj} {k : String} {v : JsVal}
    (h : objGet b k = some v) : objGet (spread a b) k = some v := by
  rw [objGet_spread, h]

theorem objGet_spread_of_none {a b : JsObj} {k : String}
    (h : objGet b k = none) : objGet (spread a b) k = objGet a k := by
  rw [objGet_spread, h]

theorem objGet_merge_completed (X : JsObj) :
    objGet (spread X [("completed", JsVal.bool true)]) "completed" =
      some (JsVal.bool true) := by
  rw [objGet_spread]
  rfl

theorem objGet_merge_other {X : JsObj} {k : String} (hk : k ≠ "completed") :
    objGet (spread X [("completed", JsVal.bool true)]) k = objGet X k := by
  rw [objGet_spread]
  have h1 : objGet [("completed", JsVal.bool true)] k = none := by
    show (if ("completed") = k then some (JsVal.bool true) else objGet [] k) = none
    rw [if_neg (fun h => hk h.symm)]
    rfl
  rw [h1]

/-! ### State-store reduction lemmas -/

theorem getWorkflowState_some_inv {fs : Fs} {dir : String} {s : WorkflowState}
    (h : getWorkflowState fs dir = some s) :
    fs (statePath dir) = some (StateFile.parsed s) := by
  unfold getWorkflowState at h
  cases hf : fs (statePath dir) with
  | none => rw [hf] at h; exact Option.noConfusion h
  | some sf =>
    cases sf with
    | malformed => rw [hf] at h; exact Option.noConfusion h
    | parsed s0 =>
      rw [hf] at h
      injection h with h2
      rw [h2]

theorem getWorkflowState_set {fs : Fs} {st : WorkflowState} {dir : String}
    (h : st.featureDir = dir) :
    getWorkflowState (setWorkflowState fs st) dir = some st := by
  unfold getWorkflowState setWorkflowState
  rw [h]
  simp

theorem updateWorkflowState_eq_some {fs : Fs} {dir : String} {s0 : WorkflowState}
    (step : Step) (d : JsObj) (now : String)
    (hread : getWorkflowState fs dir = some s0) :
    updateWorkflowState fs dir step d now =
      ({ s0 with
          currentStep := step,
          stepStatus := fun s => if s = step then
            some (spread (spread ((s0.stepStatus step).getD []) d)
              [("completed", JsVal.bool true)]) else s0.stepStatus s },
        setWorkflowState fs
          { s0 with
            currentStep := step,
            stepStatus := fun s => if s = step then
              some (spread (spread ((s0.stepStatus step).getD []) d)
                [("completed", JsVal.bool true)]) else s0.stepStatus s }) := by
  unfold updateWorkflowState
  rw [hread]

theorem updateWorkflowState_eq_none {fs : Fs} {dir : String}
    (step : Step) (d : JsObj) (now : String)
    (hread : getWorkflowState fs dir = none) :
    updateWorkflowState fs dir step d now =
      ({ featureDir := dir, currentStep := step,
         stepStatus := fun s => if s = step then
           some (spread (spread ([] : JsObj) d) [("completed", JsVal.bool true)])
           else none,
         metadata := [("startedAt", JsVal.str now), ("featureDescription", JsVal.str (""))] },
       setWorkflowState
         (setWorkflowState fs
           { featureDir := dir, currentStep := Step.specify,
             stepStatus := fun _ => none,
             metadata := [("startedAt", JsVal.str now), ("featureDescription", JsVal.str (""))] })
         { featureDir := dir, currentStep := step,
           stepStatus := fun s => if s = step then
             some (spread (spread ([] : JsObj) d) [("completed", JsVal.bool true)])
             else none,
           metadata := [("startedAt", JsVal.str now), ("featureDescription", JsVal.str (""))] }) := by
  unfold updateWorkflowState initWorkflowState
  rw [hread]
  rfl

/-! ### Remaining small helpers -/

theorem map_self_of_forall {α} (f : α → α) :
    ∀ (l : List α), (∀ a ∈ l, f a = a) → l.map f = l
  | [], _ => rfl
  | a :: l, h => by
    rw [List.map_cons, h a (List.mem_cons_self a l),
      map_self_of_forall f l (fun b hb => h b (List.mem_cons_of_mem a hb))]

theorem mutId_nil : mutId [] = none := rfl

theorem mutId_some_inv {l tid : List Char} (h : mutId l = some tid) :
    ∃ g1 c g3 g5, matchMut l = some (g1, c, g3, tid, g5) := by
  unfold mutId at h
  obtain ⟨g, hg, hEq⟩ := Option.map_eq_some'.mp h
  obtain ⟨g1, c, g3, g4, g5⟩ := g
  refine ⟨g1, c, g3, g5, ?_⟩
  rw [hg]
  simp only at hEq
  rw [hEq]

theorem matchMut_g1_lt {l g1 g3 g4 g5 : List Char} {c : Char}
    (hm : matchMut l = some (g1, c, g3, g4, g5)) : g1.length < l.length := by
  rw [(matchMut_parts hm).1]
  simp only [List.length_append, List.length_cons]
  omega

/-! ### Claims -/

/-- C4.  Every task record produced by `parseTasksMd` carries as its phase
the trimmed title of the nearest phase-heading line preceding its task line
(in document order), and the empty string when no phase heading precedes it:
the parser output coincides with the positional description
`tasksWithNearestPhase` (which recomputes, for every task line, the last
phase heading among all preceding lines).  A task after two headings is
therefore attributed to the second, never the first. -/
theorem c4_phase_attribution (doc : List Char) :
    parseTasksMd doc = tasksWithNearestPhase [] (splitLines doc) := by
  unfold parseTasksMd
  rw [tasksWithNearestPhase_eq]
  rfl

/-- C5.  The sequence of ids produced by `parseTasksMd` follows the document
order of the corresponding task lines (it is the in-order `filterMap` of the
per-line id), and this id sequence is unchanged when the document is first
rewritten by `markTaskComplete` for any id and then reparsed. -/
theorem c5_id_order_and_stability (doc tid : List Char) :
    (parseTasksMd doc).map (fun t => t.id) = (splitLines doc).filterMap lineTaskId ∧
    (parseTasksMd (markTaskComplete doc tid)).map (fun t => t.id) =
      (parseTasksMd doc).map (fun t => t.id) := by
  constructor
  · exact parseTasks_map_id _ _
  · unfold parseTasksMd
    rw [splitLines_markTaskComplete]
    exact parseTasks_mutLine_id tid _ _

/-- C7.  Reading the workflow state returns an explicit absent result (the
total function returns `none`; no exception escapes) both when no state file
exists and when the stored content fails to parse; the two cases yield the
same result and are indistinguishable to the caller. -/
theorem c7_absent_and_malformed_read (fs : Fs) (dir : String) :
    (fs (statePath dir) = none → getWorkflowState fs dir = none) ∧
    (fs (statePath dir) = some StateFile.malformed → getWorkflowState fs dir = none) := by
  constructor <;> intro h <;> unfold getWorkflowState <;> rw [h]

theorem c7_absent_and_malformed_read_witness :
    getWorkflowState (fun _ => none) "specs/001-feature" = none ∧
    getWorkflowState (fun _ => some StateFile.malformed) "specs/001-feature" = none :=
  ⟨(c7_absent_and_malformed_read (fun _ => none) "specs/001-feature").1 rfl,
   (c7_absent_and_malformed_read (fun _ => some StateFile.malformed) "specs/001-feature").2 rfl⟩

/-- C8.  For every file system, file path and target id that is empty or
whitespace-only, `markTaskComplete` raises the validation error naming the
invalid field (the path check runs first, so an empty path is reported as
the missing path) and performs no file I/O at all: the event trace is empty
and the result is the error. -/
theorem c8_validation_before_io (fs : List Char → Option (List Char))
    (filePath taskId : List Char) (hid : jsTrim taskId = []) :
    markTaskCompleteRun fs filePath taskId =
      ([], Except.error (if filePath = [] then ("File path is required").toList
        else ("Task ID is required").toList)) := by
  unfold markTaskCompleteRun
  by_cases hp : filePath = []
  · rw [if_pos hp, if_pos hp]
  · rw [if_neg hp, if_pos (Or.inr hid), if_neg hp]

theorem c8_validation_before_io_witness :
    markTaskCompleteRun (fun _ => some ("- [ ] T001 a").toList)
      ("tasks.md").toList ("  ").toList =
      ([], Except.error ("Task ID is required").toList) := by
  rw [c8_validation_before_io (fun _ => some ("- [ ] T001 a").toList)
    ("tasks.md").toList ("  ").toList (by decide), if_neg (by decide)]

/-- C9.  For every file system, feature directory and step value of the
`currentStep` enumeration, an update sets `currentStep` to exactly that
step regardless of the previous state — the body is uniform in the step, so
transitions are unconstrained and may regress (the TypeScript
`Exclude<…, 'complete'>` on the parameter is a compile-time annotation with
no runtime check). -/
theorem c9_current_step_follows_update (fs : Fs) (dir : String) (step : Step)
    (d : JsObj) (now : String) :
    (updateWorkflowState fs dir step d now).1.currentStep = step := by
  cases hread : getWorkflowState fs dir with
  | some s0 => rw [updateWorkflowState_eq_some step d now hread]
  | none => rw [updateWorkflowState_eq_none step d now hread]

/-- C10.  `parseTasksMd` fills the story field only from a bracketed tag of
exactly the shape `US` followed by one or more digits (after the id and the
optional `[P]` tag): every produced story is `US` + digits, and a bracketed
tag of any other shape (`[AUTH]`, lowercase `[us1]`) yields no story, its
text remaining part of the description, while `[P] [US2]` parses as story
`US2`. -/
theorem c10_story_shape :
    (∀ (l : List Char) (tsk : Task), taskOfLine l = some tsk →
      tsk.story = none ∨ ∃ ds, ds ≠ [] ∧ (∀ a ∈ ds, isDigitJs a = true) ∧
        tsk.story = some ('U' :: 'S' :: ds)) ∧
    (parseTasksMd ("- [ ] T001 [AUTH] login").toList).map (fun t => (t.story, t.description)) =
      [(none, ("[AUTH] login").toList)] ∧
    (parseTasksMd ("- [ ] T001 [us1] login").toList).map (fun t => (t.story, t.description)) =
      [(none, ("[us1] login").toList)] ∧
    (parseTasksMd ("- [ ] T001 [P] [US2] login").toList).map (fun t => (t.story, t.description)) =
      [(some ("US2").toList, ("login").toList)] := by
  refine ⟨fun l tsk h => taskOfLine_story h, ?_, ?_, ?_⟩ <;> decide

theorem c10_story_shape_witness :
    ({ id := ("T003").toList, completed := false,
       description := ("Description 3").toList, phase := [],
       parallel := true, story := some (("US1").toList) } : Task).story = none ∨
      ∃ ds, ds ≠ [] ∧ (∀ a ∈ ds, isDigitJs a = true) ∧
        ({ id := ("T003").toList, completed := false,
           description := ("Description 3").toList, phase := [],
           parallel := true, story := some (("US1").toList) } : Task).story =
          some ('U' :: 'S' :: ds) :=
  c10_story_shape.1 ("- [ ] T003 [P] [US1] Description 3").toList
    { id := ("T003").toList, completed := false,
      description := ("Description 3").toList, phase := [],
      parallel := true, story := some (("US1").toList) } (by decide)

/-- C1 (counterexample).  The claim that only the FIRST line whose id equals
the target is altered is false: in a two-line document whose lines both
carry id T001, the second (duplicate) line is not byte-identical after the
mutation — `markTaskComplete` rewrites it too. -/
theorem c1_first_only_refuted :
    (splitLines (markTaskComplete ("- [ ] T001 a\n- [ ] T001 b").toList
      ("T001").toList)).getD 1 [] ≠
      (splitLines ("- [ ] T001 a\n- [ ] T001 b").toList).getD 1 [] := by
  decide

/-- C1 (amended).  `markTaskComplete` rewrites EVERY line whose capture id
equals the target, not just the first: line count is preserved, each
matching line (duplicates included) has exactly one position set to X, each
non-matching line is byte-identical, and a document with no matching line
is returned byte-identical (the operation succeeds as a no-op). -/
theorem c1_mutator_rewrites_every_match (doc tid : List Char) :
    (splitLines (markTaskComplete doc tid)).length = (splitLines doc).length ∧
    (∀ j, mutId ((splitLines doc).getD j []) = some tid →
      ∃ p, p < ((splitLines doc).getD j []).length ∧
        (splitLines (markTaskComplete doc tid)).getD j [] =
          ((splitLines doc).getD j []).set p 'X') ∧
    (∀ j, mutId ((splitLines doc).getD j []) ≠ some tid →
      (splitLines (markTaskComplete doc tid)).getD j [] =
        (splitLines doc).getD j []) ∧
    ((∀ l ∈ splitLines doc, mutId l ≠ some tid) →
      markTaskComplete doc tid = doc) := by
  have hsp := splitLines_markTaskComplete doc tid
  refine ⟨by rw [hsp]; simp, ?_, ?_, ?_⟩
  · intro j hj
    by_cases hlt : j < (splitLines doc).length
    · rw [hsp, getD_map_lt (mutLine tid) _ j hlt []]
      obtain ⟨g1, c, g3, g5, hm⟩ := mutId_some_inv hj
      exact ⟨g1.length, matchMut_g1_lt hm, mutLine_set_of_match hm rfl⟩
    · exfalso
      rw [getD_ge _ j [] (Nat.le_of_not_lt hlt), mutId_nil] at hj
      exact Option.noConfusion hj
  · intro j hj
    by_cases hlt : j < (splitLines doc).length
    · rw [hsp, getD_map_lt (mutLine tid) _ j hlt []]
      exact mutLine_eq_of_ne hj
    · have hlen : ((splitLines doc).map (mutLine tid)).length ≤ j := by
        simpa using Nat.le_of_not_lt hlt
      rw [hsp, getD_ge _ j [] hlen, getD_ge _ j [] (Nat.le_of_not_lt hlt)]
  · intro hall
    unfold markTaskComplete
    rw [map_self_of_forall (mutLine tid) _ (fun l hl => mutLine_eq_of_ne (hall l hl))]
    exact joinLines_splitLines doc

theorem c1_mutator_rewrites_every_match_witness :
    ∃ p, p < ((splitLines (("- [ ] T001 a\n- [ ] T001 b").toList)).getD 1 []).length ∧
      (splitLines (markTaskComplete ("- [ ] T001 a\n- [ ] T001 b").toList
        ("T001").toList)).getD 1 [] =
        ((splitLines (("- [ ] T001 a\n- [ ] T001 b").toList)).getD 1 []).set p 'X' :=
  (c1_mutator_rewrites_every_match ("- [ ] T001 a\n- [ ] T001 b").toList
    ("T001").toList).2.1 1 (by decide)

/-- C2 (counterexample).  The claim that mutating an already-complete task
leaves the line's bytes unchanged (marker stays `x`/`X`) is false for a
lowercase marker: the mutator rewrites `- [x] T001 done` to
`- [X] T001 done`, changing the document. -/
theorem c2_lowercase_preserved_refuted :
    markTaskComplete ("- [x] T001 done").toList ("T001").toList ≠
      ("- [x] T001 done").toList := by
  decide

/-- C2 (amended).  Mutating an already-complete task whose marker is the
uppercase X leaves the line byte-identical; a lowercase x marker is
rewritten to uppercase X — that single marker byte is the only change, so
the task stays complete and marking remains one-directional. -/
theorem c2_mark_normalizes_marker (doc tid : List Char) (i : Nat)
    (g1 g3 g4 g5 : List Char) (c : Char)
    (hi : i < (splitLines doc).length)
    (hm : matchMut ((splitLines doc).getD i []) = some (g1, c, g3, g4, g5))
    (hid : g4 = tid) :
    (splitLines (markTaskComplete doc tid)).getD i [] =
      g1 ++ 'X' :: (g3 ++ (g4 ++ g5)) ∧
    (c = 'X' → (splitLines (markTaskComplete doc tid)).getD i [] =
      (splitLines doc).getD i []) ∧
    (c = 'x' →
      (splitLines (markTaskComplete doc tid)).getD i [] ≠ (splitLines doc).getD i [] ∧
      (splitLines (markTaskComplete doc tid)).getD i [] =
        ((splitLines doc).getD i []).set g1.length 'X') := by
  have hout : (splitLines (markTaskComplete doc tid)).getD i [] =
      mutLine tid ((splitLines doc).getD i []) := by
    rw [splitLines_markTaskComplete, getD_map_lt (mutLine tid) _ i hi []]
  have hl := (matchMut_parts hm).1
  refine ⟨by rw [hout]; exact mutLine_eq_of_match hm hid, ?_, ?_⟩
  · intro hX
    rw [hout, mutLine_eq_of_match hm hid, hl, hX]
  · intro hx
    constructor
    · rw [hout, mutLine_eq_of_match hm hid, hl, hx]
      intro hcontra
      have := List.append_inj_right hcontra rfl
      simp at this
    · rw [hout]
      exact mutLine_set_of_match hm hid

theorem c2_mark_normalizes_marker_witness :
    (splitLines (markTaskComplete ("- [x] T001 done").toList ("T001").toList)).getD 0 [] ≠
      (splitLines ("- [x] T001 done").toList).getD 0 [] ∧
    (splitLines (markTaskComplete ("- [x] T001 done").toList ("T001").toList)).getD 0 [] =
      ((splitLines ("- [x] T001 done").toList).getD 0 []).set ("- [").toList.length 'X' :=
  (c2_mark_normalizes_marker ("- [x] T001 done").toList ("T001").toList 0
    ("- [").toList ("] ").toList ("T001").toList (" done").toList 'x'
    (by decide) (by decide) rfl).2.2 rfl

/-- C3.  For a document with exactly one line whose mutator-capture id
equals the target (the mutator decides a rewrite by the bracket-and-id
prefix alone, per the regex), `markTaskComplete` changes only the single
bracket character of that line — the output line equals the input line with
exactly the bracket position (a `[\sxX]`-class character) set to X — and
every other line of the document is byte-identical. -/
theorem c3_mutation_locality (doc tid : List Char) (i : Nat)
    (hi : i < (splitLines doc).length)
    (hone : ∀ j, j < (splitLines doc).length →
      (mutId ((splitLines doc).getD j []) = some tid ↔ j = i)) :
    (splitLines (markTaskComplete doc tid)).length = (splitLines doc).length ∧
    (∀ j, j ≠ i →
      (splitLines (markTaskComplete doc tid)).getD j [] = (splitLines doc).getD j []) ∧
    ∃ p, p < ((splitLines doc).getD i []).length ∧
      isBracketChar (((splitLines doc).getD i []).getD p ' ') = true ∧
      (splitLines (markTaskComplete doc tid)).getD i [] =
        ((splitLines doc).getD i []).set p 'X' := by
  have hsp := splitLines_markTaskComplete doc tid
  refine ⟨by rw [hsp]; simp, ?_, ?_⟩
  · intro j hj
    by_cases hlt : j < (splitLines doc).length
    · rw [hsp, getD_map_lt (mutLine tid) _ j hlt []]
      exact mutLine_eq_of_ne (fun hcontra => hj ((hone j hlt).mp hcontra))
    · have hlen : ((splitLines doc).map (mutLine tid)).length ≤ j := by
        simpa using Nat.le_of_not_lt hlt
      rw [hsp, getD_ge _ j [] hlen, getD_ge _ j [] (Nat.le_of_not_lt hlt)]
  · obtain ⟨g1, c, g3, g5, hm⟩ := mutId_some_inv ((hone i hi).mpr rfl)
    have hl := (matchMut_parts hm).1
    have hbr := (matchMut_parts hm).2.1
    refine ⟨g1.length, matchMut_g1_lt hm, ?_, ?_⟩
    · rw [hl, getD_append_len]
      exact hbr
    · rw [hsp, getD_map_lt (mutLine tid) _ i hi []]
      exact mutLine_set_of_match hm rfl

theorem c3_mutation_locality_witness :
    ∃ p, p < ((splitLines ("- [ ] T001 a\n- [ ] T002 b").toList).getD 1 []).length ∧
      isBracketChar
        (((splitLines ("- [ ] T001 a\n- [ ] T002 b").toList).getD 1 []).getD p ' ') = true ∧
      (splitLines (markTaskComplete ("- [ ] T001 a\n- [ ] T002 b").toList
        ("T002").toList)).getD 1 [] =
        ((splitLines ("- [ ] T001 a\n- [ ] T002 b").toList).getD 1 []).set p 'X' :=
  (c3_mutation_locality ("- [ ] T001 a\n- [ ] T002 b").toList ("T002").toList 1
    (by decide) (by decide)).2.2

theorem merged_lookup (old d1 d2 : JsObj) (k : String) (v : JsVal) :
    objGet (spread (spread (spread (spread old d1) [("completed", JsVal.bool true)]) d2)
      [("completed", JsVal.bool true)]) "completed" = some (JsVal.bool true) ∧
    (k ≠ "completed" → objGet d2 k = some v →
      objGet (spread (spread (spread (spread old d1) [("completed", JsVal.bool true)]) d2)
        [("completed", JsVal.bool true)]) k = some v) ∧
    (k ≠ "completed" → objGet d2 k = none → objGet d1 k = some v →
      objGet (spread (spread (spread (spread old d1) [("completed", JsVal.bool true)]) d2)
        [("completed", JsVal.bool true)]) k = some v) := by
  refine ⟨objGet_merge_completed _, ?_, ?_⟩
  · intro hk h2
    rw [objGet_merge_other hk]
    exact objGet_spread_of_some h2
  · intro hk h2 h1
    rw [objGet_merge_other hk, objGet_spread_of_none h2, objGet_merge_other hk]
    exact objGet_spread_of_some h1

/-- C6.  Two successive updates for the same step shallow-merge their
step-data: in the resulting `stepStatus[step]`, `completed` is forced to
`true`, every key of the second update keeps the second update's value, and
every key of the first update that the second did not overwrite keeps the
first update's value.  The well-formedness hypothesis says a pre-existing
state file for the directory names that directory (which is how this module
always writes them). -/
theorem c6_update_merges_step_data (fs : Fs) (dir : String) (step : Step)
    (d1 d2 : JsObj) (now1 now2 : String) (k : String) (v : JsVal) (m : JsObj)
    (hwf : ∀ s, fs (statePath dir) = some (StateFile.parsed s) → s.featureDir = dir)
    (hm : (updateWorkflowState (updateWorkflowState fs dir step d1 now1).2
        dir step d2 now2).1.stepStatus step = some m) :
    objGet m ("completed") = some (JsVal.bool true) ∧
    (k ≠ "completed" → objGet d2 k = some v → objGet m k = some v) ∧
    (k ≠ "completed" → objGet d2 k = none → objGet d1 k = some v →
      objGet m k = some v) := by
  cases hread : getWorkflowState fs dir with
  | some s0 =>
    have hdir : s0.featureDir = dir := hwf s0 (getWorkflowState_some_inv hread)
    rw [updateWorkflowState_eq_some step d1 now1 hread] at hm
    have hread2 : getWorkflowState
        (setWorkflowState fs
          { s0 with
            currentStep := step,
            stepStatus := fun s => if s = step then
              some (spread (spread ((s0.stepStatus step).getD []) d1)
                [("completed", JsVal.bool true)]) else s0.stepStatus s }) dir =
        some { s0 with
            currentStep := step,
            stepStatus := fun s => if s = step then
              some (spread (spread ((s0.stepStatus step).getD []) d1)
                [("completed", JsVal.bool true)]) else s0.stepStatus s } :=
      getWorkflowState_set hdir
    rw [updateWorkflowState_eq_some step d2 now2 hread2] at hm
    have hm2 : some (spread (spread (spread (spread ((s0.stepStatus step).getD []) d1)
        [("completed", JsVal.bool true)]) d2) [("completed", JsVal.bool true)]) = some m := by
      rw [← hm]
      simp
    injection hm2 with hEq
    rw [← hEq]
    exact merged_lookup ((s0.stepStatus step).getD []) d1 d2 k v
  | none =>
    rw [updateWorkflowState_eq_none step d1 now1 hread] at hm
    have hread2 : getWorkflowState
        (setWorkflowState
          (setWorkflowState fs
            { featureDir := dir,
              currentStep := Step.specify,
              stepStatus := fun _ => none,
              metadata := [("startedAt", JsVal.str now1),
                ("featureDescription", JsVal.str (""))] })
          { featureDir := dir,
            currentStep := step,
            stepStatus := fun s => if s = step then
              some (spread (spread ([] : JsObj) d1) [("completed", JsVal.bool true)])
              else none,
            metadata := [("startedAt", JsVal.str now1),
              ("featureDescription", JsVal.str (""))] }) dir =
        some
          { featureDir := dir,
            currentStep := step,
            stepStatus := fun s => if s = step then
              some (spread (spread ([] : JsObj) d1) [("completed", JsVal.bool true)])
              else none,
            metadata := [("startedAt", JsVal.str now1),
              ("featureDescription", JsVal.str (""))] } :=
      getWorkflowState_set rfl
    rw [updateWorkflowState_eq_some step d2 now2 hread2] at hm
    have hm2 : some (spread (spread (spread (spread ([] : JsObj) d1)
        [("completed", JsVal.bool true)]) d2) [("completed", JsVal.bool true)]) = some m := by
      rw [← hm]
      simp
    injection hm2 with hEq
    rw [← hEq]
    exact merged_lookup [] d1 d2 k v

theorem c6_update_merges_step_data_witness :
    objGet [("planPath", JsVal.str ("/a")), ("completed", JsVal.bool true),
        ("artifacts", JsVal.arr [JsVal.str ("/b")])] ("completed") =
      some (JsVal.bool true) ∧
    objGet [("planPath", JsVal.str ("/a")), ("completed", JsVal.bool true),
        ("artifacts", JsVal.arr [JsVal.str ("/b")])] ("artifacts") =
      some (JsVal.arr [JsVal.str ("/b")]) ∧
    objGet [("planPath", JsVal.str ("/a")), ("completed", JsVal.bool true),
        ("artifacts", JsVal.arr [JsVal.str ("/b")])] ("planPath") =
      some (JsVal.str ("/a")) := by
  have h := c6_update_merges_step_data (fun _ => none) ("specs/001-feature") Step.plan
    [("planPath", JsVal.str ("/a"))] [("artifacts", JsVal.arr [JsVal.str ("/b")])]
    ("t1") ("t2") ("planPath") (JsVal.str ("/a"))
    [("planPath", JsVal.str ("/a")), ("completed", JsVal.bool true),
      ("artifacts", JsVal.arr [JsVal.str ("/b")])]
    (fun s hs => Option.noConfusion hs) rfl
  have h2 := c6_update_merges_step_data (fun _ => none) ("specs/001-feature") Step.plan
    [("planPath", JsVal.str ("/a"))] [("artifacts", JsVal.arr [JsVal.str ("/b")])]
    ("t1") ("t2") ("artifacts") (JsVal.arr [JsVal.str ("/b")])
    [("planPath", JsVal.str ("/a")), ("completed", JsVal.bool true),
      ("artifacts", JsVal.arr [JsVal.str ("/b")])]
    (fun s hs => Option.noConfusion hs) rfl
  exact ⟨h.1, h2.2.1 (by decide) rfl, h.2.2 (by decide) rfl rfl⟩

end Speckit